import Mathlib

/-!
Shallow embedding of `src/reg.py`, a regulation sandbox built around
python-control transfer functions.  Polynomials are coefficient lists over ℚ,
highest degree first (the numpy / python-control convention).  The embedding
covers: the numpy coefficient arithmetic (`polyadd`, `polymul`) that
python-control uses for series composition and unity feedback, the regulator
advice ladder `conseil_regulateur`, PID synthesis `create_pid`, the symbolic
route (`tf_to_sympy`, `symbolic_analysis`) with sympy's rational
simplification modelled as cancellation by the polynomial gcd, and the pole
extraction passthrough of the source.
-/

namespace Reg

/-- Coefficient list of a polynomial, highest degree first. -/
abbrev Coeffs := List ℚ

/-- Zero-pad a coefficient list on the left (high-order side) to length `n`;
this is how numpy aligns operands of different lengths before `polyadd`. -/
def padZeros (n : Nat) (l : Coeffs) : Coeffs :=
  List.replicate (n - l.length) 0 ++ l

/-- Model of `numpy.polyadd`: right-aligned coefficientwise addition. -/
def polyadd (a b : Coeffs) : Coeffs :=
  List.zipWith (· + ·)
    (padZeros (max a.length b.length) a)
    (padZeros (max a.length b.length) b)

/-- Model of `numpy.polymul`: discrete convolution of the coefficient lists,
written recursively (the head contributes `h · s^(len t) · b`). -/
def polymul : Coeffs → Coeffs → Coeffs
  | [], _ => []
  | h :: t, b => polyadd (b.map (fun x => h * x) ++ List.replicate t.length 0) (polymul t b)

/-- Horner evaluation of a coefficient list with an explicit accumulator. -/
def evalAux (x : ℚ) (acc : ℚ) (l : Coeffs) : ℚ :=
  l.foldl (fun a c => a * x + c) acc

/-- Value at `x` of the polynomial with coefficient list `l` (highest first). -/
def evalPoly (l : Coeffs) (x : ℚ) : ℚ := evalAux x 0 l

/-- Strip leading (high-order) zero coefficients.  This is both how
`sympy.Poly` normalizes a coefficient list into a polynomial and the core of
python-control's `TransferFunction._truncatecoeff`. -/
def ptrim {α : Type} [Zero α] [DecidableEq α] : List α → List α
  | [] => []
  | c :: t => if c = 0 then ptrim t else c :: t

/-- Model of `TransferFunction._truncatecoeff`: python-control strips the
leading zero coefficients of every stored numerator and denominator when a
`TransferFunction` is constructed, keeping `[0]` when all coefficients are
zero.  (A NaN coefficient counts as nonzero, as in numpy.) -/
def truncatecoeff {α : Type} [Zero α] [DecidableEq α] (l : List α) : List α :=
  if ptrim l = [] then [0] else ptrim l

/-- Model of the `TransferFunction(num, den)` constructor: the coefficient
pair is stored after `_truncatecoeff` trimming of each list. -/
def make_tf {α : Type} [Zero α] [DecidableEq α] (num den : List α) :
    List α × List α :=
  (truncatecoeff num, truncatecoeff den)

/-- Fuel-indexed polynomial long division on highest-first coefficient lists:
returns (quotient, remainder).  One fuel unit is consumed per elimination of
the current leading coefficient; fuel `a.length` always suffices because each
step shortens the dividend by exactly one coefficient. -/
def pdivF : Nat → Coeffs → Coeffs → Coeffs × Coeffs
  | 0, a, _ => ([], a)
  | fuel + 1, a, b =>
    if a.length < b.length then ([], a)
    else
      let q0 := a.headD 0 / b.headD 0
      let r := (List.zipWith (· + ·) a
        ((b.map (fun x => -q0 * x)) ++ List.replicate (a.length - b.length) 0)).tail
      match pdivF fuel r b with
      | (q, rem) => (q0 :: q, rem)

/-- Fuel-indexed Euclidean algorithm on coefficient lists (the second
argument's length strictly decreases, so fuel `b.length + 1` suffices). -/
def pgcdF : Nat → Coeffs → Coeffs → Coeffs
  | 0, a, _ => ptrim a
  | fuel + 1, a, b =>
    if ptrim b = [] then ptrim a
    else pgcdF fuel (ptrim b) (pdivF a.length a (ptrim b)).2

/-- Polynomial gcd of two coefficient lists (up to a nonzero scalar factor). -/
def pgcd (a b : Coeffs) : Coeffs := pgcdF (b.length + 1) a b

/-- Modelled from the library behavior: `sympy.simplify` applied to a ratio of
two polynomials cancels their polynomial gcd (as `sympy.cancel` does),
returning the reduced numerator/denominator pair; the scalar normalization
sympy applies on top differs only by a common nonzero factor, which none of
the claims depend on. -/
def simplifyRat (n d : Coeffs) : Coeffs × Coeffs :=
  ((pdivF (ptrim n).length (ptrim n) (pgcd (ptrim n) (ptrim d))).1,
   (pdivF (ptrim d).length (ptrim d) (pgcd (ptrim n) (ptrim d))).1)

/-- Value space for what the symbolic conversion routes can produce: a numpy
array of numbers (elementwise data), or a rational-function expression in the
indeterminate `s`, represented by its reduced numerator/denominator pair. -/
inductive SymVal where
  | arr : List ℚ → SymVal
  | ratfun : Coeffs × Coeffs → SymVal
deriving DecidableEq

/-- numpy elementwise division of two 1-D arrays with broadcasting: defined
when the lengths agree or either array has length 1; numpy raises a broadcast
ValueError otherwise. -/
def broadcastDiv (a b : List ℚ) : Option (List ℚ) :=
  if a.length = b.length then some (List.zipWith (fun x y => x / y) a b)
  else if a.length = 1 then some (b.map (fun y => a.headD 0 / y))
  else if b.length = 1 then some (a.map (fun x => x / b.headD 0))
  else none

/-- Embedding of `tf_to_sympy` (src/reg.py lines 14-21) as it actually
executes.  The source sums `sys.num[0][i] * s**(len(sys.num[0]) - i - 1)` for
`i in range(len(sys.num[0]))`, but in python-control `num[0]` is the
per-input list of coefficient arrays, of length 1 for the SISO systems this
app builds; the generator therefore yields the single term
`coefficient-array * s^0`, so `num` and `den` are the raw arrays and
`num / den` is numpy elementwise division with broadcasting.  Simplifying an
array of rational numbers leaves its entries unchanged; the result is never
the rational-function expression N(s)/D(s). -/
def tf_to_sympy (num den : Coeffs) : Option SymVal :=
  (broadcastDiv num den).map SymVal.arr

/-- Embedding of the first component of `symbolic_analysis` (src/reg.py lines
79-84): `sp.Poly(num, s).as_expr()` normalizes the list into a polynomial
(stripping leading zeros), and `Gs` is the sympy-simplified ratio.  The
integral and derivative components of the source's triple are not modelled
here; no settled claim depends on them. -/
def symbolic_analysis_Gs (num den : Coeffs) : Coeffs × Coeffs :=
  simplifyRat (ptrim num) (ptrim den)

/-- The value of the first component of `symbolic_analysis`, as a `SymVal`:
a genuine rational-function expression in `s`. -/
def symbolic_Gs_val (num den : Coeffs) : SymVal :=
  SymVal.ratfun (symbolic_analysis_Gs num den)

/-- Model of the step-response metrics dict returned by `control.step_info`:
each entry may be absent, which the source reads with `dict.get` defaults. -/
structure StepInfo where
  overshoot : Option ℚ
  settlingTime : Option ℚ

/-- Embedding of `conseil_regulateur` (src/reg.py lines 49-66).  The poles
computed at lines 50-53 are never used by the function and are omitted.  The
source reads `info.get("Overshoot", 0)` and `info.get("SettlingTime", 0)`,
substituting 0 when a metric is absent, then walks the threshold ladder. -/
def conseil_regulateur (info : StepInfo) : String × String :=
  if info.overshoot.getD 0 < 1 ∧ info.settlingTime.getD 0 < 2 then
    ("P", "Le système est déjà stable et rapide → correcteur P suffisant.")
  else if info.overshoot.getD 0 < 10 then
    ("PI", "Erreur statique possible, dynamique stable → PI adapté.")
  else if info.overshoot.getD 0 > 20 then
    ("PD", "Système oscillant → dérivée nécessaire.")
  else
    ("PID", "Cas général → PID pour précision + stabilité.")

/-- Model of a Python float value: finite rational, NaN, or a signed
infinity.  Used to express claims about non-finite gains. -/
inductive PyFloat where
  | finite : ℚ → PyFloat
  | nan : PyFloat
  | inf : PyFloat
  | ninf : PyFloat
deriving DecidableEq

instance : Zero PyFloat := ⟨PyFloat.finite 0⟩

instance : One PyFloat := ⟨PyFloat.finite 1⟩

/-- Embedding of `create_pid` (src/reg.py lines 72-73): it builds
`TransferFunction([Kd, Kp, Ki], [1, 0])` directly from the gains, with no
validation of any kind; the constructor trims leading zero coefficients.
The definition is polymorphic in the scalar type so that it can be applied
both to exact rationals and to the `PyFloat` model of non-finite floats. -/
def create_pid {α : Type} [Zero α] [One α] [DecidableEq α] (Kp Ki Kd : α) :
    List α × List α :=
  make_tf [Kd, Kp, Ki] [1, 0]

/-- Embedding of python-control `TransferFunction.__mul__` (the `pid * system`
expression at src/reg.py line 178): numerators and denominators multiply, and
the result passes through the TransferFunction constructor, which trims
leading zero coefficients. -/
def tf_mul (s1 s2 : Coeffs × Coeffs) : Coeffs × Coeffs :=
  make_tf (polymul s1.1 s2.1) (polymul s1.2 s2.2)

/-- Embedding of python-control `TransferFunction.feedback(other, sign)`:
`num = polymul(num1, den2)` and
`den = polyadd(polymul(den2, den1), -sign * polymul(num2, num1))`, wrapped in
the TransferFunction constructor, which trims leading zero coefficients. -/
def feedback (s1 s2 : Coeffs × Coeffs) (sign : ℚ) : Coeffs × Coeffs :=
  make_tf (polymul s1.1 s2.2)
    (polyadd (polymul s2.2 s1.2) ((polymul s2.1 s1.1).map (fun x => -sign * x)))

/-- Embedding of `closed_loop = control.feedback(pid * system, 1)`
(src/reg.py line 178): unity negative feedback around the series
interconnection; the constant `1` converts to the transfer function
`([1], [1])` and the default sign is `-1`. -/
def closed_loop (pid sys : Coeffs × Coeffs) : Coeffs × Coeffs :=
  feedback (tf_mul pid sys) ([1], [1]) (-1)

/-- Embedding of the pole extraction of src/reg.py lines 50-53 and 140-145:
the source calls `control.poles` and, if that raises, `control.pole`, and
forwards whichever root list the library produced without any reordering.
The library's output order is not specified, so it enters as a parameter. -/
def poles_src (primary : Option (List (ℚ × ℚ))) (fallback : List (ℚ × ℚ)) :
    List (ℚ × ℚ) :=
  match primary with
  | some r => r
  | none => fallback

/-- Ordering required by the spec for pole output: ascending real part, ties
broken by ascending imaginary part (non-strict, so repeated roots fit). -/
def poleLe (p q : ℚ × ℚ) : Prop :=
  p.1 < q.1 ∨ (p.1 = q.1 ∧ p.2 ≤ q.2)

instance : DecidableRel poleLe := fun p q =>
  inferInstanceAs (Decidable (p.1 < q.1 ∨ (p.1 = q.1 ∧ p.2 ≤ q.2)))

/-- A pole list is sorted when consecutive entries respect `poleLe`. -/
def sortedPoles (l : List (ℚ × ℚ)) : Prop := l.Chain' poleLe

instance : DecidablePred sortedPoles := fun l =>
  inferInstanceAs (Decidable (l.Chain' poleLe))

/-- Inputs of one pipeline invocation: the coefficient lists and gains typed
into the UI, the root list produced by the external root-finder (identical
inputs include identical library responses), and the step-response metrics. -/
structure PipelineInputs where
  num : Coeffs
  den : Coeffs
  kp : ℚ
  ki : ℚ
  kd : ℚ
  libPoles : Option (List (ℚ × ℚ))
  libPolesFallback : List (ℚ × ℚ)
  info : StepInfo

/-- Outputs of one pipeline invocation. -/
structure PipelineOutputs where
  gs : Coeffs × Coeffs
  poleSeq : List (ℚ × ℚ)
  advice : String × String
  pid : Coeffs × Coeffs
  closedLoopSys : Coeffs × Coeffs

/-- One full run of the script's core pipeline (src/reg.py lines 108-178),
threaded through an explicit state of arbitrary type standing for Python
module-level mutable state: none of the embedded source functions reads or
writes any module state, so the state passes through unchanged. -/
def runPipeline {σ : Type} (g : σ) (inp : PipelineInputs) :
    PipelineOutputs × σ :=
  (⟨symbolic_analysis_Gs inp.num inp.den,
    poles_src inp.libPoles inp.libPolesFallback,
    conseil_regulateur inp.info,
    create_pid inp.kp inp.ki inp.kd,
    closed_loop (create_pid inp.kp inp.ki inp.kd) (inp.num, inp.den)⟩, g)

/-- Horner step: consing a coefficient folds it into the accumulator. -/
theorem evalAux_cons (x acc c : ℚ) (t : Coeffs) :
    evalAux x acc (c :: t) = evalAux x (acc * x + c) t := rfl

/-- Splitting the Horner accumulator from the polynomial value. -/
theorem evalAux_acc (x : ℚ) (l : Coeffs) :
    ∀ acc : ℚ, evalAux x acc l = acc * x ^ l.length + evalAux x 0 l := by
  induction l with
  | nil => intro acc; simp [evalAux]
  | cons c t ih =>
      intro acc
      rw [evalAux_cons, evalAux_cons, ih (acc * x + c), ih (0 * x + c),
        List.length_cons]
      ring

/-- Horner evaluation of a cons cell. -/
theorem evalPoly_cons (x c : ℚ) (t : Coeffs) :
    evalPoly (c :: t) x = c * x ^ t.length + evalPoly t x := by
  rw [evalPoly, evalAux_cons, evalAux_acc]
  ring_nf
  rw [evalPoly]

/-- Evaluating across an append splits into the high and low parts. -/
theorem evalAux_append (x acc : ℚ) (l1 l2 : Coeffs) :
    evalAux x acc (l1 ++ l2) = evalAux x (evalAux x acc l1) l2 := by
  simp [evalAux, List.foldl_append]

/-- A block of zero coefficients only shifts the accumulator up in degree. -/
theorem evalAux_replicate_zero (x : ℚ) (k : Nat) :
    ∀ acc : ℚ, evalAux x acc (List.replicate k 0) = acc * x ^ k := by
  induction k with
  | zero => intro acc; simp [evalAux]
  | succ n ih =>
      intro acc
      rw [List.replicate_succ, evalAux_cons, ih (acc * x + 0)]
      ring

/-- Appending zero coefficients multiplies the value by `x ^ k`. -/
theorem evalPoly_append_zeros (x : ℚ) (l : Coeffs) (k : Nat) :
    evalPoly (l ++ List.replicate k 0) x = evalPoly l x * x ^ k := by
  rw [evalPoly, evalAux_append, evalAux_replicate_zero, evalPoly]

/-- Left zero-padding does not change the polynomial value. -/
theorem evalPoly_padZeros (x : ℚ) (n : Nat) (l : Coeffs) :
    evalPoly (padZeros n l) x = evalPoly l x := by
  rw [evalPoly, padZeros, evalAux_append, evalAux_replicate_zero]
  simp [evalPoly]

/-- Length of a left zero-padded list. -/
theorem padZeros_length (n : Nat) (l : Coeffs) :
    (padZeros n l).length = max n l.length := by
  simp [padZeros]
  omega

/-- Coefficientwise addition of equal-length lists adds the values. -/
theorem evalAux_zipWith_add (x : ℚ) :
    ∀ (a b : Coeffs), a.length = b.length → ∀ acc1 acc2 : ℚ,
      evalAux x (acc1 + acc2) (List.zipWith (· + ·) a b) =
        evalAux x acc1 a + evalAux x acc2 b := by
  intro a
  induction a with
  | nil =>
      intro b hb acc1 acc2
      cases b with
      | nil => simp [evalAux]
      | cons d t2 => simp at hb
  | cons c t1 ih =>
      intro b hb acc1 acc2
      cases b with
      | nil => simp at hb
      | cons d t2 =>
          simp only [List.length_cons, Nat.succ.injEq] at hb
          rw [List.zipWith_cons_cons, evalAux_cons, evalAux_cons, evalAux_cons,
            show (acc1 + acc2) * x + (c + d) = (acc1 * x + c) + (acc2 * x + d) by ring,
            ih t2 hb]

/-- Correctness of `polyadd` with respect to evaluation. -/
theorem evalPoly_polyadd (x : ℚ) (a b : Coeffs) :
    evalPoly (polyadd a b) x = evalPoly a x + evalPoly b x := by
  rw [polyadd, evalPoly, show (0 : ℚ) = 0 + 0 by ring,
    evalAux_zipWith_add x _ _ (by rw [padZeros_length, padZeros_length]; omega)]
  rw [← evalPoly, ← evalPoly, evalPoly_padZeros, evalPoly_padZeros]

/-- Scaling every coefficient scales the value. -/
theorem evalAux_map_mul (x c : ℚ) (l : Coeffs) :
    ∀ acc : ℚ, evalAux x (c * acc) (l.map (fun y => c * y)) = c * evalAux x acc l := by
  induction l with
  | nil => intro acc; simp [evalAux]
  | cons h t ih =>
      intro acc
      rw [List.map_cons, evalAux_cons, evalAux_cons,
        show c * acc * x + c * h = c * (acc * x + h) by ring, ih (acc * x + h)]

/-- Correctness of `polymul` with respect to evaluation. -/
theorem evalPoly_polymul (x : ℚ) :
    ∀ (a b : Coeffs), evalPoly (polymul a b) x = evalPoly a x * evalPoly b x := by
  intro a
  induction a with
  | nil => intro b; simp [polymul, evalPoly, evalAux]
  | cons h t ih =>
      intro b
      rw [polymul, evalPoly_polyadd, evalPoly_append_zeros,
        ih b, evalPoly_cons,
        show evalPoly (b.map (fun y => h * y)) x = h * evalPoly b x by
          rw [evalPoly, show (0 : ℚ) = h * 0 by ring, evalAux_map_mul, ← evalPoly]]
      ring

/-- Adding a pure monomial to a strictly lower-degree polynomial just conses
its coefficient in front. -/
theorem polyadd_monomial (c : ℚ) (t : Coeffs) :
    polyadd (c :: List.replicate t.length 0) t = c :: t := by
  have hz : ∀ l : Coeffs, List.zipWith (· + ·) (List.replicate l.length 0) l = l := by
    intro l
    induction l with
    | nil => rfl
    | cons d l2 ih => simp [List.replicate_succ, ih]
  rw [polyadd]
  have hlen : max (c :: List.replicate t.length 0).length t.length = t.length + 1 := by
    simp
  rw [hlen]
  have h1 : padZeros (t.length + 1) (c :: List.replicate t.length 0) =
      c :: List.replicate t.length 0 := by
    simp [padZeros]
  have h2 : padZeros (t.length + 1) t = 0 :: t := by
    have hn : t.length + 1 - t.length = 1 := by omega
    rw [padZeros, hn]
    rfl
  rw [h1, h2, List.zipWith_cons_cons, hz, add_zero]

/-- Multiplying by the constant polynomial `[1]` on the right is the identity. -/
theorem polymul_one_right : ∀ a : Coeffs, polymul a [1] = a := by
  intro a
  induction a with
  | nil => rfl
  | cons h t ih =>
      rw [polymul, ih]
      simp only [List.map_cons, List.map_nil, mul_one, List.singleton_append]
      exact polyadd_monomial h t

/-- Multiplying by the constant polynomial `[1]` on the left is the identity. -/
theorem polymul_one_left (b : Coeffs) : polymul [1] b = b := by
  rw [polymul, polymul]
  have h1 : b.map (fun x => (1 : ℚ) * x) = b := by simp
  have hz : ∀ l : Coeffs, List.zipWith (· + ·) l (List.replicate l.length 0) = l := by
    intro l
    induction l with
    | nil => rfl
    | cons d l2 ih => simp [List.replicate_succ, ih]
  simp only [List.length_nil, List.replicate_zero, List.append_nil, h1]
  rw [polyadd]
  simp only [List.length_nil, Nat.max_zero]
  have h2 : padZeros b.length b = b := by simp [padZeros]
  have h3 : padZeros b.length ([] : Coeffs) = List.replicate b.length 0 := by
    simp [padZeros]
  rw [h2, h3, hz]

/-- Long division by a nonzero constant polynomial divides every coefficient
and leaves no remainder. -/
theorem pdivF_const (c : ℚ) :
    ∀ a : Coeffs, pdivF a.length a [c] = (a.map (fun x => x / c), []) := by
  intro a
  induction a with
  | nil => rfl
  | cons h t ih =>
      have hz : ∀ l : Coeffs, List.zipWith (· + ·) l (List.replicate l.length 0) = l := by
        intro l
        induction l with
        | nil => rfl
        | cons d l2 ih2 => simp [List.replicate_succ, ih2]
      have hcond : ¬ (h :: t).length < ([c] : Coeffs).length := by simp
      rw [List.length_cons, pdivF, if_neg hcond]
      simp only [List.headD_cons, List.map_cons, List.map_nil, List.length_cons,
        List.length_singleton, List.length_nil, Nat.zero_add, Nat.add_sub_cancel,
        List.singleton_append, List.zipWith_cons_cons, List.tail_cons, hz]
      rw [ih]

/-- Stripping leading zeros is idempotent. -/
theorem ptrim_idem : ∀ l : Coeffs, ptrim (ptrim l) = ptrim l := by
  intro l
  induction l with
  | nil => rfl
  | cons c t ih =>
      by_cases hc : c = 0
      · simp only [ptrim, if_pos hc]
        exact ih
      · simp only [ptrim, if_neg hc]

/-- Every list is a block of leading zeros followed by its trimmed form. -/
theorem ptrim_decomp : ∀ l : Coeffs, ∃ k, l = List.replicate k 0 ++ ptrim l := by
  intro l
  induction l with
  | nil => exact ⟨0, rfl⟩
  | cons c t ih =>
      by_cases hc : c = 0
      · obtain ⟨k, hk⟩ := ih
        refine ⟨k + 1, ?_⟩
        rw [show ptrim (c :: t) = ptrim t by simp [ptrim, hc],
          List.replicate_succ, List.cons_append, ← hk, hc]
      · exact ⟨0, by simp [ptrim, hc]⟩

/-- Leading zeros are invisible to trimming. -/
theorem ptrim_append_zeros : ∀ (k : Nat) (l : Coeffs),
    ptrim (List.replicate k 0 ++ l) = ptrim l := by
  intro k
  induction k with
  | zero => intro l; rfl
  | succ n ih =>
      intro l
      rw [List.replicate_succ, List.cons_append]
      simp [ptrim, ih]

/-- Padding to a larger width factors through padding to a smaller one. -/
theorem padZeros_split (N n : Nat) (l : Coeffs) (h1 : l.length ≤ n) (h2 : n ≤ N) :
    padZeros N l = List.replicate (N - n) 0 ++ padZeros n l := by
  rw [padZeros, padZeros, ← List.append_assoc, ← List.replicate_add]
  have h3 : N - n + (n - l.length) = N - l.length := by omega
  rw [h3]

/-- Adding two zero blocks of equal length gives a zero block. -/
theorem zipWith_add_zeros_zeros (m : Nat) :
    List.zipWith (· + ·) (List.replicate m (0 : ℚ)) (List.replicate m 0) =
      List.replicate m 0 := by
  induction m with
  | zero => rfl
  | succ n ih => simp [List.replicate_succ, ih]

/-- Widening the common padding of a coefficientwise sum only prepends
zeros. -/
theorem polyadd_pad (N : Nat) (a b : Coeffs) (h : max a.length b.length ≤ N) :
    List.zipWith (· + ·) (padZeros N a) (padZeros N b) =
      List.replicate (N - max a.length b.length) 0 ++ polyadd a b := by
  rw [padZeros_split N (max a.length b.length) a (le_max_left _ _) h,
    padZeros_split N (max a.length b.length) b (le_max_right _ _) h,
    List.zipWith_append _ _ _ _ _ (by simp), zipWith_add_zeros_zeros]
  rfl

/-- Leading zeros on one summand of `polyadd` only prepend zeros to the
result. -/
theorem polyadd_replicate_left (k : Nat) (a b : Coeffs) :
    ∃ j, polyadd (List.replicate k 0 ++ a) b = List.replicate j 0 ++ polyadd a b := by
  have hlen : (List.replicate k (0 : ℚ) ++ a).length = k + a.length := by simp
  have hmax : max a.length b.length ≤ max (k + a.length) b.length :=
    max_le (le_trans (Nat.le_add_left a.length k) (le_max_left _ _)) (le_max_right _ _)
  have hpad : padZeros (max (k + a.length) b.length) (List.replicate k 0 ++ a) =
      padZeros (max (k + a.length) b.length) a := by
    rw [padZeros, padZeros, hlen, ← List.append_assoc, ← List.replicate_add]
    have harith : max (k + a.length) b.length - (k + a.length) + k =
        max (k + a.length) b.length - a.length := by omega
    rw [harith]
  refine ⟨max (k + a.length) b.length - max a.length b.length, ?_⟩
  have hstart : polyadd (List.replicate k 0 ++ a) b =
      List.zipWith (· + ·)
        (padZeros (max (k + a.length) b.length) (List.replicate k 0 ++ a))
        (padZeros (max (k + a.length) b.length) b) := by
    simp only [polyadd, hlen]
  rw [hstart, hpad, polyadd_pad _ a b hmax]

/-- Trimming a summand before adding does not change the trimmed sum. -/
theorem ptrim_polyadd_left (a b : Coeffs) :
    ptrim (polyadd (ptrim a) b) = ptrim (polyadd a b) := by
  obtain ⟨k, hk⟩ := ptrim_decomp a
  conv_rhs => rw [hk]
  obtain ⟨j, hj⟩ := polyadd_replicate_left k (ptrim a) b
  rw [hj, ptrim_append_zeros]

/-- Coefficientwise addition is commutative. -/
theorem zipWith_add_comm : ∀ x y : Coeffs,
    List.zipWith (· + ·) x y = List.zipWith (· + ·) y x := by
  intro x
  induction x with
  | nil => intro y; cases y <;> rfl
  | cons c t ih =>
      intro y
      cases y with
      | nil => rfl
      | cons d u => rw [List.zipWith_cons_cons, List.zipWith_cons_cons, add_comm, ih u]

/-- `polyadd` is commutative. -/
theorem polyadd_comm (a b : Coeffs) : polyadd a b = polyadd b a := by
  simp only [polyadd]
  rw [Nat.max_comm a.length, zipWith_add_comm]

/-- Lists with equal trimmed forms have equal `_truncatecoeff` forms. -/
theorem trunc_congr {x y : Coeffs} (h : ptrim x = ptrim y) :
    truncatecoeff x = truncatecoeff y := by
  simp only [truncatecoeff, h]

/-- `_truncatecoeff`-trimming a summand does not change the trimmed sum. -/
theorem ptrim_polyadd_trunc_left (a b : Coeffs) :
    ptrim (polyadd (truncatecoeff a) b) = ptrim (polyadd a b) := by
  by_cases h : ptrim a = []
  · simp only [truncatecoeff, if_pos h]
    obtain ⟨k, hk⟩ := ptrim_decomp a
    rw [hk, h, List.append_nil]
    have h1 : [(0 : ℚ)] = List.replicate 1 0 ++ [] := rfl
    have h2 : List.replicate k (0 : ℚ) = List.replicate k 0 ++ [] := by simp
    rw [h1, h2]
    obtain ⟨j1, hj1⟩ := polyadd_replicate_left 1 ([] : Coeffs) b
    obtain ⟨j2, hj2⟩ := polyadd_replicate_left k ([] : Coeffs) b
    rw [hj1, hj2, ptrim_append_zeros, ptrim_append_zeros]
  · simp only [truncatecoeff, if_neg h]
    exact ptrim_polyadd_left a b

/-- The constructor trim commutes with `polyadd` of constructor-trimmed
operands: trimming the inputs and the output once is the same as trimming
the raw sum. -/
theorem trunc_polyadd_trunc (a b : Coeffs) :
    truncatecoeff (polyadd (truncatecoeff a) (truncatecoeff b)) =
      truncatecoeff (polyadd a b) := by
  apply trunc_congr
  calc ptrim (polyadd (truncatecoeff a) (truncatecoeff b))
      = ptrim (polyadd a (truncatecoeff b)) := ptrim_polyadd_trunc_left _ _
    _ = ptrim (polyadd (truncatecoeff b) a) := by rw [polyadd_comm]
    _ = ptrim (polyadd b a) := ptrim_polyadd_trunc_left _ _
    _ = ptrim (polyadd a b) := by rw [polyadd_comm]

/-- The constructor trim is idempotent. -/
theorem truncatecoeff_idem (l : Coeffs) :
    truncatecoeff (truncatecoeff l) = truncatecoeff l := by
  by_cases h : ptrim l = []
  · simp only [truncatecoeff, if_pos h]
    norm_num [truncatecoeff, ptrim]
  · simp only [truncatecoeff, if_neg h, ptrim_idem l, if_neg h]

/-- Trimming leading zeros does not change the polynomial value. -/
theorem evalPoly_ptrim (x : ℚ) : ∀ l : Coeffs, evalPoly (ptrim l) x = evalPoly l x := by
  intro l
  induction l with
  | nil => rfl
  | cons c t ih =>
      by_cases hc : c = 0
      · rw [show ptrim (c :: t) = ptrim t by simp [ptrim, hc], ih, evalPoly_cons, hc]
        ring
      · rw [show ptrim (c :: t) = c :: t by simp [ptrim, hc]]

/-- A list that trims to nothing is the zero polynomial. -/
theorem ptrim_nil_eval (x : ℚ) : ∀ l : Coeffs, ptrim l = [] → evalPoly l x = 0 := by
  intro l
  induction l with
  | nil => intro _; rfl
  | cons c t ih =>
      intro h
      by_cases hc : c = 0
      · have ht : ptrim t = [] := by simpa [ptrim, hc] using h
        rw [evalPoly_cons, ih ht, hc]
        ring
      · exact absurd h (by simp [ptrim, hc])

/-- The constructor trim does not change the polynomial value. -/
theorem evalPoly_truncatecoeff (x : ℚ) (l : Coeffs) :
    evalPoly (truncatecoeff l) x = evalPoly l x := by
  by_cases h : ptrim l = []
  · simp only [truncatecoeff, if_pos h]
    rw [ptrim_nil_eval x l h]
    simp [evalPoly, evalAux]
  · simp only [truncatecoeff, if_neg h]
    exact evalPoly_ptrim x l

/-- C1 (confirmed): the regulator advisor evaluates its threshold ladder in
the source's fixed order — P when overshoot < 1 and settling < 2, else PI
when overshoot < 10, else PD when overshoot > 20, else PID — each branch
paired with its fixed rationale string, and it yields P on (0.5, 1), PI on
(5, 3), PD on overshoot 25 with any settling value, and PID on (15, 3). -/
theorem C1_advisor_ladder (ov st : ℚ) :
    (ov < 1 ∧ st < 2 →
      conseil_regulateur ⟨some ov, some st⟩ =
        ("P", "Le système est déjà stable et rapide → correcteur P suffisant.")) ∧
    (¬(ov < 1 ∧ st < 2) → ov < 10 →
      conseil_regulateur ⟨some ov, some st⟩ =
        ("PI", "Erreur statique possible, dynamique stable → PI adapté.")) ∧
    (¬(ov < 1 ∧ st < 2) → ¬ov < 10 → ov > 20 →
      conseil_regulateur ⟨some ov, some st⟩ =
        ("PD", "Système oscillant → dérivée nécessaire.")) ∧
    (¬(ov < 1 ∧ st < 2) → ¬ov < 10 → ¬ov > 20 →
      conseil_regulateur ⟨some ov, some st⟩ =
        ("PID", "Cas général → PID pour précision + stabilité.")) ∧
    conseil_regulateur ⟨some (1 / 2), some 1⟩ =
      ("P", "Le système est déjà stable et rapide → correcteur P suffisant.") ∧
    conseil_regulateur ⟨some 5, some 3⟩ =
      ("PI", "Erreur statique possible, dynamique stable → PI adapté.") ∧
    (∀ st2 : Option ℚ, conseil_regulateur ⟨some 25, st2⟩ =
      ("PD", "Système oscillant → dérivée nécessaire.")) ∧
    conseil_regulateur ⟨some 15, some 3⟩ =
      ("PID", "Cas général → PID pour précision + stabilité.") := by
  refine ⟨?_, ?_, ?_, ?_, ?_, ?_, ?_, ?_⟩
  · intro h
    simp only [conseil_regulateur, Option.getD_some]
    rw [if_pos h]
  · intro h1 h2
    simp only [conseil_regulateur, Option.getD_some]
    rw [if_neg h1, if_pos h2]
  · intro h1 h2 h3
    simp only [conseil_regulateur, Option.getD_some]
    rw [if_neg h1, if_neg h2, if_pos h3]
  · intro h1 h2 h3
    simp only [conseil_regulateur, Option.getD_some]
    rw [if_neg h1, if_neg h2, if_neg h3]
  · simp only [conseil_regulateur, Option.getD_some]
    rw [if_pos (by norm_num)]
  · simp only [conseil_regulateur, Option.getD_some]
    rw [if_neg (by rintro ⟨h1, h2⟩; norm_num at h2), if_pos (by norm_num)]
  · intro st2
    cases st2 with
    | none =>
        simp only [conseil_regulateur, Option.getD_some, Option.getD_none]
        rw [if_neg (by rintro ⟨h, _⟩; norm_num at h), if_neg (by norm_num),
          if_pos (by norm_num)]
    | some y =>
        simp only [conseil_regulateur, Option.getD_some]
        rw [if_neg (by rintro ⟨h, _⟩; norm_num at h), if_neg (by norm_num),
          if_pos (by norm_num)]
  · simp only [conseil_regulateur, Option.getD_some]
    rw [if_neg (by rintro ⟨h, _⟩; norm_num at h), if_neg (by norm_num),
      if_neg (by norm_num)]

/-- C1 witness: the theorem applied at overshoot 5 and settling time 3
recovers the PI recommendation. -/
theorem C1_witness :
    conseil_regulateur ⟨some 5, some 3⟩ =
      ("PI", "Erreur statique possible, dynamique stable → PI adapté.") :=
  (C1_advisor_ladder 5 3).2.1 (by norm_num) (by norm_num)

/-- C2 counterexample: invoked with a metrics record that has no overshoot
value at all, the advisor does not fail — it returns the P recommendation,
because the source substitutes the default 0 for both missing metrics. -/
theorem C2_counterexample :
    conseil_regulateur ⟨none, none⟩ =
      ("P", "Le système est déjà stable et rapide → correcteur P suffisant.") := by
  simp only [conseil_regulateur, Option.getD_none]
  rw [if_pos (by norm_num)]

/-- C2 (corrected): when the overshoot is undefined the advisor substitutes
the default value 0 (and likewise 0 for a missing settling time) and walks
its ladder as usual; it never fails with any IndeterminateRecommendation
error, which does not exist in the source. -/
theorem C2_default_substitution (st : Option ℚ) :
    conseil_regulateur ⟨none, st⟩ = conseil_regulateur ⟨some 0, st⟩ := rfl

/-- C3 counterexample: at gains Kp = 1, Ki = 1, Kd = 0 the stored numerator
of the synthesized controller is [1, 1] — the TransferFunction constructor
trims the leading zero — and not the [0, 1, 1] the claim asserts. -/
theorem C3_counterexample :
    create_pid (1 : ℚ) 1 0 = ([1, 1], [1, 0]) ∧
    create_pid (1 : ℚ) 1 0 ≠ ([0, 1, 1], [1, 0]) := by
  have h : create_pid (1 : ℚ) 1 0 = ([1, 1], [1, 0]) := by
    norm_num [create_pid, make_tf, truncatecoeff, ptrim]
    simp
  refine ⟨h, ?_⟩
  rw [h]
  simp

/-- C3 (corrected): for all gains the synthesizer builds numerator
[Kd, Kp, Ki] and denominator [1, 0] and stores them through the
TransferFunction constructor, which strips leading zero coefficients; the
stored pair is exactly ([Kd, Kp, Ki], [1, 0]) whenever Kd ≠ 0, while at
(Kp, Ki, Kd) = (1, 1, 0) it is ([1, 1], [1, 0]) — still the transfer
function (s + 1)/s, as the evaluation identities show. -/
theorem C3_pid_synthesis (Kp Ki Kd : ℚ) :
    create_pid Kp Ki Kd = (truncatecoeff [Kd, Kp, Ki], [1, 0]) ∧
    (Kd ≠ 0 → create_pid Kp Ki Kd = ([Kd, Kp, Ki], [1, 0])) ∧
    create_pid (1 : ℚ) 1 0 = ([1, 1], [1, 0]) ∧
    (∀ x : ℚ, evalPoly (create_pid (1 : ℚ) 1 0).1 x = x + 1 ∧
      evalPoly (create_pid (1 : ℚ) 1 0).2 x = x) := by
  have hden : truncatecoeff [(1 : ℚ), 0] = [1, 0] := by
    norm_num [truncatecoeff, ptrim]
    simp
  have h1 : create_pid Kp Ki Kd = (truncatecoeff [Kd, Kp, Ki], [1, 0]) := by
    show make_tf [Kd, Kp, Ki] [1, 0] = _
    simp only [make_tf, hden]
  have hc : create_pid (1 : ℚ) 1 0 = ([1, 1], [1, 0]) := by
    norm_num [create_pid, make_tf, truncatecoeff, ptrim]
    simp
  refine ⟨h1, ?_, hc, ?_⟩
  · intro hk
    have ht : ptrim [Kd, Kp, Ki] = [Kd, Kp, Ki] := by simp [ptrim, hk]
    have ht2 : truncatecoeff [Kd, Kp, Ki] = [Kd, Kp, Ki] := by
      simp [truncatecoeff, ht]
    rw [h1, ht2]
  · intro x
    rw [hc]
    constructor
    · show evalPoly [1, 1] x = x + 1
      simp [evalPoly, evalAux]
    · show evalPoly [1, 0] x = x
      simp [evalPoly, evalAux]

/-- C3 witness: at the all-ones gain triple the leading gain is nonzero, so
the stored controller is exactly ([1, 1, 1], [1, 0]). -/
theorem C3_witness : create_pid (1 : ℚ) 1 1 = ([1, 1, 1], [1, 0]) :=
  (C3_pid_synthesis 1 1 1).2.1 one_ne_zero

/-- C4 counterexample: called with a NaN proportional gain (and Kd = 0),
`create_pid` does not fail with InvalidGains — it constructs and returns the
controller system, whose stored numerator is [NaN, 1] after the constructor
trims the leading zero gain. -/
theorem C4_counterexample :
    create_pid PyFloat.nan (PyFloat.finite 1) (PyFloat.finite 0) =
      ([PyFloat.nan, PyFloat.finite 1], [PyFloat.finite 1, PyFloat.finite 0]) := by
  decide

/-- C4 (corrected): `create_pid` performs no validation whatsoever — for
every gain triple, finite or not, negative or not, it succeeds and returns
the system built from numerator [Kd, Kp, Ki] (leading zero coefficients
trimmed by the constructor, so exactly [Kd, Kp, Ki] when Kd ≠ 0) and
denominator [1, 0]; no InvalidGains error and no warning exist in the
source. -/
theorem C4_no_validation (Kp Ki Kd : PyFloat) :
    create_pid Kp Ki Kd =
      (truncatecoeff [Kd, Kp, Ki], [PyFloat.finite 1, PyFloat.finite 0]) ∧
    (Kd ≠ 0 → create_pid Kp Ki Kd =
      ([Kd, Kp, Ki], [PyFloat.finite 1, PyFloat.finite 0])) := by
  have h2 : ptrim [(1 : PyFloat), 0] = [PyFloat.finite 1, PyFloat.finite 0] := by
    simp [ptrim, show (1 : PyFloat) = PyFloat.finite 1 from rfl,
      show (0 : PyFloat) = PyFloat.finite 0 from rfl]
  have hden : truncatecoeff [(1 : PyFloat), 0] = [PyFloat.finite 1, PyFloat.finite 0] := by
    simp [truncatecoeff, h2]
  have h1 : create_pid Kp Ki Kd =
      (truncatecoeff [Kd, Kp, Ki], [PyFloat.finite 1, PyFloat.finite 0]) := by
    show make_tf [Kd, Kp, Ki] [1, 0] = _
    simp only [make_tf, hden]
  refine ⟨h1, fun hk => ?_⟩
  have ht : ptrim [Kd, Kp, Ki] = [Kd, Kp, Ki] := by simp [ptrim, hk]
  have ht2 : truncatecoeff [Kd, Kp, Ki] = [Kd, Kp, Ki] := by
    simp [truncatecoeff, ht]
  rw [h1, ht2]

/-- C4 witness: a triple mixing NaN, infinity and a negative finite gain is
accepted and stored as given (the leading gain is nonzero). -/
theorem C4_witness :
    create_pid PyFloat.nan PyFloat.inf (PyFloat.finite (-1)) =
      ([PyFloat.finite (-1), PyFloat.nan, PyFloat.inf],
       [PyFloat.finite 1, PyFloat.finite 0]) :=
  (C4_no_validation PyFloat.nan PyFloat.inf (PyFloat.finite (-1))).2 (by decide)

/-- C5 counterexample: with the stored controller ([1, 1, 1], [1, 0]) (the
PID for Kp = Ki = Kd = 1) and the stored plant ([-1], [1, 0]) (G(s) = -1/s),
the leading coefficients of Dc·Dp = [1, 0, 0] and Nc·Np = [-1, -1, -1]
cancel: the raw sum is [0, -1, -1] but the program stores the trimmed
denominator [-1, -1], so the closed loop is not the pair
(Nc·Np, Dc·Dp + Nc·Np) of raw coefficient lists the claim asserts. -/
theorem C5_counterexample :
    closed_loop ([1, 1, 1], [1, 0]) ([-1], [1, 0]) = ([-1, -1, -1], [-1, -1]) ∧
    polymul [(1 : ℚ), 1, 1] [-1] = [-1, -1, -1] ∧
    polyadd (polymul [(1 : ℚ), 0] [1, 0]) (polymul [1, 1, 1] [-1]) = [0, -1, -1] ∧
    closed_loop ([1, 1, 1], [1, 0]) ([-1], [1, 0]) ≠
      (polymul [(1 : ℚ), 1, 1] [-1],
       polyadd (polymul [(1 : ℚ), 0] [1, 0]) (polymul [1, 1, 1] [-1])) := by
  have h1 : closed_loop ([1, 1, 1], [1, 0]) ([-1], [1, 0]) =
      ([-1, -1, -1], [-1, -1]) := by
    norm_num [closed_loop, feedback, tf_mul, make_tf, truncatecoeff, ptrim,
      polymul, polyadd, padZeros, List.replicate, List.zipWith]
    simp
  have h2 : polymul [(1 : ℚ), 1, 1] [-1] = [-1, -1, -1] := by
    norm_num [polymul, polyadd, padZeros, List.replicate, List.zipWith]
  have h3 : polyadd (polymul [(1 : ℚ), 0] [1, 0]) (polymul [1, 1, 1] [-1]) =
      [0, -1, -1] := by
    norm_num [polymul, polyadd, padZeros, List.replicate, List.zipWith]
  refine ⟨h1, h2, h3, ?_⟩
  rw [h1, h3, h2]
  simp

/-- C5 (corrected): the closed loop's numerator and denominator are the exact
polynomial product Nc·Np and the exact sum Dc·Dp + Nc·Np, with no pole-zero
cancellation — the stored lists evaluate exactly to those polynomials — and
the only further change is the TransferFunction constructor's removal of
leading zero coefficients from each stored list; the concrete controller
([1],[1]) with plant ([1],[1,0]) closes to ([1],[1,1]), whose denominator
vanishes exactly at s = -1. -/
theorem C5_feedback_composition (c p : Coeffs × Coeffs) :
    closed_loop c p = (truncatecoeff (polymul c.1 p.1),
      truncatecoeff (polyadd (polymul c.2 p.2) (polymul c.1 p.1))) ∧
    (∀ x : ℚ, evalPoly (closed_loop c p).1 x = evalPoly c.1 x * evalPoly p.1 x) ∧
    (∀ x : ℚ, evalPoly (closed_loop c p).2 x =
      evalPoly c.2 x * evalPoly p.2 x + evalPoly c.1 x * evalPoly p.1 x) ∧
    closed_loop ([1], [1]) ([1], [1, 0]) = ([1], [1, 1]) ∧
    (∀ x : ℚ, evalPoly [(1 : ℚ), 1] x = 0 ↔ x = -1) := by
  have hmap : ∀ l : Coeffs, l.map (fun x => -(-1 : ℚ) * x) = l := by
    intro l; simp
  have hmain : closed_loop c p = (truncatecoeff (polymul c.1 p.1),
      truncatecoeff (polyadd (polymul c.2 p.2) (polymul c.1 p.1))) := by
    show feedback (tf_mul c p) ([1], [1]) (-1) = _
    simp only [feedback, tf_mul, make_tf]
    rw [polymul_one_right, polymul_one_left, polymul_one_left, hmap,
      truncatecoeff_idem, trunc_polyadd_trunc]
  refine ⟨hmain, ?_, ?_, ?_, ?_⟩
  · intro x
    rw [hmain]
    show evalPoly (truncatecoeff (polymul c.1 p.1)) x = _
    rw [evalPoly_truncatecoeff, evalPoly_polymul]
  · intro x
    rw [hmain]
    show evalPoly (truncatecoeff (polyadd (polymul c.2 p.2) (polymul c.1 p.1))) x = _
    rw [evalPoly_truncatecoeff, evalPoly_polyadd, evalPoly_polymul, evalPoly_polymul]
  · norm_num [closed_loop, feedback, tf_mul, make_tf, truncatecoeff, ptrim,
      polymul, polyadd, padZeros, List.replicate, List.zipWith]
    simp
  · intro x
    have hx : evalPoly [(1 : ℚ), 1] x = x + 1 := by simp [evalPoly, evalAux]
    rw [hx]
    constructor
    · intro h; linarith
    · intro h; rw [h]; ring

/-- C5 witness: the theorem applied to the controller C(s) = 1 and plant
G(s) = 1/s recovers the closed loop ([1],[1,1]) and its pole at -1. -/
theorem C5_witness :
    closed_loop ([1], [1]) ([1], [1, 0]) = ([1], [1, 1]) ∧
    evalPoly [(1 : ℚ), 1] (-1) = 0 :=
  ⟨(C5_feedback_composition ([1], [1]) ([1], [1, 0])).2.2.2.1,
   ((C5_feedback_composition ([1], [1]) ([1], [1, 0])).2.2.2.2 (-1)).mpr rfl⟩

/-- C6 counterexample: when the external root-finder reports the roots 2 and
1 in that order (e.g. numpy's output for the denominator s² − 3s + 2), the
source forwards them unsorted, so the returned sequence is not in ascending
(real, imaginary) order. -/
theorem C6_counterexample :
    ¬ sortedPoles (poles_src (some [((2 : ℚ), (0 : ℚ)), (1, 0)]) []) := by
  show ¬ sortedPoles [((2 : ℚ), (0 : ℚ)), (1, 0)]
  simp only [sortedPoles, List.chain'_cons, List.chain'_singleton, and_true, poleLe]
  norm_num

/-- C6 (corrected): the pole sequence returned by the source is exactly the
root-finder's output (the `control.poles` result when that call succeeds,
else the `control.pole` fallback), in the library's order, with no sorting
applied; it is sorted precisely when the library output already is. -/
theorem C6_poles_passthrough (r fallback : List (ℚ × ℚ)) :
    poles_src (some r) fallback = r ∧
    poles_src none fallback = fallback ∧
    (sortedPoles (poles_src (some r) fallback) ↔ sortedPoles r) :=
  ⟨rfl, rfl, Iff.rfl⟩

/-- C7 counterexample: for the system with numerator [1, 1] and denominator
[1, 2, 1] (that is (s+1)/(s+1)²), the simplified symbolic expression
re-expands to numerator [1] and denominator [1, 1], which is not a common
nonzero scalar multiple of the original coefficient sequences. -/
theorem C7_counterexample :
    ¬ ∃ k : ℚ, k ≠ 0 ∧
      (simplifyRat [1, 1] [1, 2, 1]).1 = List.map (fun x => k * x) [1, 1] ∧
      (simplifyRat [1, 1] [1, 2, 1]).2 = List.map (fun x => k * x) [1, 2, 1] := by
  have ht1 : ptrim [(1 : ℚ), 1] = [1, 1] := by norm_num [ptrim]
  have ht2 : ptrim [(1 : ℚ), 2, 1] = [1, 2, 1] := by norm_num [ptrim]
  have hg : pgcd [(1 : ℚ), 1] [1, 2, 1] = [1, 1] := by
    norm_num [pgcd, pgcdF, pdivF, ptrim, List.replicate, List.zipWith]
    simp
  have hq : pdivF 2 [(1 : ℚ), 1] [1, 1] = ([1], [0]) := by
    norm_num [pdivF, List.replicate, List.zipWith]
  have hs : (simplifyRat [(1 : ℚ), 1] [1, 2, 1]).1 = [1] := by
    simp only [simplifyRat, ht1, ht2, hg]
    norm_num [hq]
  rintro ⟨k, hk, h1, h2⟩
  rw [hs] at h1
  simp at h1

/-- C7 (corrected): the round-trip reproduces the coefficient sequences up to
a common nonzero scalar when the stored numerator and denominator are already
free of leading zeros and coprime (their polynomial gcd is a nonzero
constant); simplification cancels any nonconstant common factor, as the
counterexample shows, so the unrestricted claim fails. -/
theorem C7_roundtrip_coprime (n d : Coeffs) (c : ℚ) (hn : ptrim n = n)
    (hd : ptrim d = d) (hg : pgcd n d = [c]) (hc : c ≠ 0) :
    ∃ k : ℚ, k ≠ 0 ∧ (simplifyRat n d).1 = n.map (fun x => k * x) ∧
      (simplifyRat n d).2 = d.map (fun x => k * x) := by
  have hdiv : (fun x : ℚ => x / c) = fun x => c⁻¹ * x := by
    funext x; rw [div_eq_mul_inv, mul_comm]
  refine ⟨c⁻¹, inv_ne_zero hc, ?_, ?_⟩
  · simp only [simplifyRat, hn, hd, hg, pdivF_const c, hdiv]
  · simp only [simplifyRat, hn, hd, hg, pdivF_const c, hdiv]

/-- C7 witness: for the coprime system 1/(s² + 2s + 1) the amended round-trip
holds with scalar factor 1. -/
theorem C7_witness :
    ∃ k : ℚ, k ≠ 0 ∧
      (simplifyRat [1] [1, 2, 1]).1 = List.map (fun x => k * x) [1] ∧
      (simplifyRat [1] [1, 2, 1]).2 = List.map (fun x => k * x) [1, 2, 1] :=
  C7_roundtrip_coprime [1] [1, 2, 1] 1 (by norm_num [ptrim]) (by norm_num [ptrim])
    (by norm_num [pgcd, pgcdF, pdivF, ptrim, List.replicate, List.zipWith])
    one_ne_zero

/-- C9 (confirmed): running the pipeline twice on identical inputs — the same
coefficient lists, gains, library root response, and metrics — produces
identical outputs, and the module-state parameter threads through the first
run unchanged, so no hidden state can influence the second run. -/
theorem C9_two_run_determinism {σ : Type} (g : σ) (inp : PipelineInputs) :
    (runPipeline (runPipeline g inp).2 inp).1 = (runPipeline g inp).1 ∧
    (runPipeline g inp).2 = g :=
  ⟨rfl, rfl⟩

/-- C10 (code bug): the two symbolic routes never agree.  `tf_to_sympy`'s sum
ranges over `sys.num[0]`, python-control's per-input list, of length 1 for
this app's SISO systems, so it forms the raw coefficient array times s^0 and
divides the arrays elementwise under numpy broadcasting; at the app's
default input num = [1], den = [1, 2, 1] it yields the array [1, 1/2, 1],
while `symbolic_analysis` yields the rational expression 1/(s² + 2s + 1) —
contradicting both the route-agreement claim and the source's own docstring
for `tf_to_sympy`. -/
theorem C10_tf_to_sympy_bug :
    tf_to_sympy [1] [1, 2, 1] = some (SymVal.arr [1, 1 / 2, 1]) ∧
    symbolic_Gs_val [1] [1, 2, 1] = SymVal.ratfun ([1], [1, 2, 1]) ∧
    tf_to_sympy [1] [1, 2, 1] ≠ some (symbolic_Gs_val [1] [1, 2, 1]) ∧
    (∀ num den : Coeffs, ∀ q : Coeffs × Coeffs,
      tf_to_sympy num den ≠ some (SymVal.ratfun q)) := by
  have harr : tf_to_sympy [1] [1, 2, 1] = some (SymVal.arr [1, 1 / 2, 1]) := by
    norm_num [tf_to_sympy, broadcastDiv]
  have hnever : ∀ num den : Coeffs, ∀ q : Coeffs × Coeffs,
      tf_to_sympy num den ≠ some (SymVal.ratfun q) := by
    intro num den q h
    rcases hb : broadcastDiv num den with _ | v
    · rw [tf_to_sympy.eq_def, hb] at h
      simp at h
    · rw [tf_to_sympy.eq_def, hb] at h
      simp at h
  have hrat : symbolic_Gs_val [1] [1, 2, 1] = SymVal.ratfun ([1], [1, 2, 1]) := by
    have ht1 : ptrim [(1 : ℚ)] = [1] := by norm_num [ptrim]
    have ht2 : ptrim [(1 : ℚ), 2, 1] = [1, 2, 1] := by norm_num [ptrim]
    have hg : pgcd [(1 : ℚ)] [1, 2, 1] = [1] := by
      norm_num [pgcd, pgcdF, pdivF, ptrim, List.replicate, List.zipWith]
    simp only [symbolic_Gs_val, symbolic_analysis_Gs, simplifyRat, ht1, ht2, hg]
    norm_num [pdivF, List.replicate, List.zipWith]
  exact ⟨harr, hrat, by rw [harr, hrat]; simp, hnever⟩

end Reg
